import Mathlib

set_option maxRecDepth 100000

/-!
Verification of core behaviors of the rpc-snooper streaming proxy.

The Go sources are shallowly embedded: pure helpers become Lean functions,
stateful components become explicit state-passing functions or small-step
relations, Go strings are modeled by their character sequences, and the Go
heap (for the mutation claim) is modeled as an append-only list of nodes.
-/

namespace RpcSnooper

/-! ## Hex truncation (snooper/hex_format.go: truncateHexValue, truncateHexInTree) -/

/-- `hexTruncateThreshold` from the source: minimum length of a hex string
before truncation kicks in. -/
def hexTruncateThreshold : Nat := 256

/-- `hexTruncatePreviewLen` from the source: hex characters shown at each end. -/
def hexTruncatePreviewLen : Nat := 8

/-- `isHexChar` from the source. -/
def isHexChar (c : Char) : Bool :=
  (('0' ≤ c) && (c ≤ '9')) ||
  (('a' ≤ c) && (c ≤ 'f')) ||
  (('A' ≤ c) && (c ≤ 'F'))

/-- The formatted replacement `fmt.Sprintf("0x%s...%s <%d bytes>", prefix, suffix, byteCount)`
with `prefix = s[2 : 2+hexTruncatePreviewLen]`, `suffix = s[len(s)-hexTruncatePreviewLen:]`,
`byteCount = (len(s) - 2) / 2`. -/
def truncatedHexForm (s : List Char) : List Char :=
  ('0' :: 'x' :: ((s.drop 2).take hexTruncatePreviewLen))
    ++ ['.', '.', '.']
    ++ (s.drop (s.length - hexTruncatePreviewLen))
    ++ (' ' :: '<' :: (Nat.repr ((s.length - 2) / 2)).data)
    ++ [' ', 'b', 'y', 't', 'e', 's', '>']

/-- `truncateHexValue` from the source, on the character sequence of the string. -/
def truncateHexValue (s : List Char) : List Char :=
  if s.length ≤ hexTruncateThreshold then s
  else if !(['0', 'x'].isPrefixOf s || ['0', 'X'].isPrefixOf s) then s
  else if ((s.drop 2).take 16).all isHexChar then truncatedHexForm s
  else s

/-- String-level wrapper of `truncateHexValue`. -/
def truncateHexValueS (s : String) : String :=
  String.mk (truncateHexValue s.data)

example : truncateHexValue ("0x".data ++ List.replicate 64 'a') = "0x".data ++ List.replicate 64 'a' := by decide
example : truncateHexValue ('0' :: 'x' :: List.replicate 300 'a')
    = ("0xaaaaaaaa...aaaaaaaa <150 bytes>").data := by decide

/-- C5: a parsed-JSON string longer than `hexTruncateThreshold` characters that
starts with `0x`/`0X` and whose first 16 post-prefix characters are hex digits
is replaced by `0x<first 8 hex>...<last 8 hex> <N bytes>` with
`N = (len - 2) / 2`; a string at most 256 characters long, or failing the
0x-start or hex-digit checks, passes through unchanged. -/
theorem truncateHexValue_spec (s : List Char) :
    (hexTruncateThreshold < s.length →
      (['0', 'x'].isPrefixOf s || ['0', 'X'].isPrefixOf s) = true →
      ((s.drop 2).take 16).all isHexChar = true →
      truncateHexValue s =
        ('0' :: 'x' :: ((s.drop 2).take 8)) ++ ['.', '.', '.']
          ++ (s.drop (s.length - 8))
          ++ (' ' :: '<' :: (Nat.repr ((s.length - 2) / 2)).data)
          ++ [' ', 'b', 'y', 't', 'e', 's', '>'])
    ∧ (s.length ≤ hexTruncateThreshold → truncateHexValue s = s)
    ∧ ((['0', 'x'].isPrefixOf s || ['0', 'X'].isPrefixOf s) = false → truncateHexValue s = s)
    ∧ (((s.drop 2).take 16).all isHexChar = false → truncateHexValue s = s) := by
  refine ⟨?_, ?_, ?_, ?_⟩
  · intro hlen hpre hhex
    simp only [truncateHexValue, truncatedHexForm, hexTruncatePreviewLen, hpre, hhex]
    rw [if_neg (by omega)]
    simp
  · intro hlen
    simp only [truncateHexValue]
    rw [if_pos hlen]
  · intro hpre
    simp only [truncateHexValue, hpre]
    split <;> simp
  · intro hhex
    simp only [truncateHexValue, hhex]
    split <;> [skip; split <;> simp] <;> simp

/-- Witness for C5: evaluates the theorem at a 302-character hex blob (truncated)
and at a 66-character hash (unchanged). -/
theorem truncateHexValue_spec_witness :
    (hexTruncateThreshold < ('0' :: 'x' :: List.replicate 300 'a').length
      ∧ truncateHexValue ('0' :: 'x' :: List.replicate 300 'a') =
        ('0' :: 'x' :: ((('0' :: 'x' :: List.replicate 300 'a').drop 2).take 8)) ++ ['.', '.', '.']
          ++ (('0' :: 'x' :: List.replicate 300 'a').drop (('0' :: 'x' :: List.replicate 300 'a').length - 8))
          ++ (' ' :: '<' :: (Nat.repr ((('0' :: 'x' :: List.replicate 300 'a').length - 2) / 2)).data)
          ++ [' ', 'b', 'y', 't', 'e', 's', '>'])
    ∧ truncateHexValue ('0' :: 'x' :: List.replicate 64 'f') = '0' :: 'x' :: List.replicate 64 'f' :=
  ⟨⟨by decide, (truncateHexValue_spec _).1 (by decide) (by decide) (by decide)⟩,
    (truncateHexValue_spec _).2.1 (by decide)⟩

/-! ## Parsed JSON trees and `truncateHexInTree` -/

/-- A parsed JSON value as produced by `json.Unmarshal` into `any`:
`map[string]any`, `[]any`, `string`, `float64`, `bool`, `nil`. Numbers are
kept opaque as integers; the claims never inspect them. -/
inductive JVal where
  | jnull : JVal
  | jbool (b : Bool) : JVal
  | jnum (q : Int) : JVal
  | jstr (s : String) : JVal
  | jarr (items : List JVal) : JVal
  | jobj (fields : List (String × JVal)) : JVal
deriving Repr

mutual

/-- `truncateHexInTree` from the source, as a pure tree function: maps and
slices are rebuilt with recursively processed children, strings go through
`truncateHexValue`, everything else passes through. -/
def truncateHexInTree : JVal → JVal
  | .jobj fields => .jobj (truncateHexFields fields)
  | .jarr items => .jarr (truncateHexItems items)
  | .jstr s => .jstr (truncateHexValueS s)
  | .jnull => .jnull
  | .jbool b => .jbool b
  | .jnum q => .jnum q

/-- The `for k, child := range val` loop of the map case. -/
def truncateHexFields : List (String × JVal) → List (String × JVal)
  | [] => []
  | (k, v) :: rest => (k, truncateHexInTree v) :: truncateHexFields rest

/-- The `for i, child := range val` loop of the slice case. -/
def truncateHexItems : List JVal → List JVal
  | [] => []
  | v :: rest => truncateHexInTree v :: truncateHexItems rest

end

/-! ## Heap model for the no-mutation claim (C6)

Go values of type `any` hold maps and slices by reference. To state that
`truncateHexInTree` never mutates its input we run it over an explicit heap:
nodes live at addresses, the function may only allocate fresh nodes (Go's
`make(map...)`, `make([]any, ...)` and newly produced strings), and we prove
the heap is only ever extended, so every pre-existing address — in particular
everything reachable from the input tree — is unchanged. -/

/-- A heap node: the one-level structure of a stored JSON value, children by
address. -/
inductive JNode where
  | obj (fields : List (String × Nat)) : JNode
  | arr (items : List Nat) : JNode
  | str (s : String) : JNode
  | num (q : Int) : JNode
  | boolv (b : Bool) : JNode
  | null : JNode
deriving Repr

/-- The heap: nodes addressed by their index; allocation appends. -/
abbrev Heap := List JNode

/-- `Stores h a v`: address `a` of heap `h` holds the JSON tree `v`. -/
inductive Stores : Heap → Nat → JVal → Prop where
  | null {h a} : h.get? a = some .null → Stores h a .jnull
  | boolv {h a b} : h.get? a = some (.boolv b) → Stores h a (.jbool b)
  | num {h a q} : h.get? a = some (.num q) → Stores h a (.jnum q)
  | str {h a s} : h.get? a = some (.str s) → Stores h a (.jstr s)
  | arr {h a} {addrs : List Nat} {items : List JVal} :
      h.get? a = some (.arr addrs) →
      addrs.length = items.length →
      (∀ i : Nat, ∀ b v, addrs.get? i = some b → items.get? i = some v → Stores h b v) →
      Stores h a (.jarr items)
  | obj {h a} {faddrs : List (String × Nat)} {fields : List (String × JVal)} :
      h.get? a = some (.obj faddrs) →
      faddrs.map Prod.fst = fields.map Prod.fst →
      faddrs.length = fields.length →
      (∀ i : Nat, ∀ b v, (faddrs.map Prod.snd).get? i = some b →
        (fields.map Prod.snd).get? i = some v → Stores h b v) →
      Stores h a (.jobj fields)

mutual

/-- `truncateHexInTree` as it executes on the heap: the recursion follows the
input tree (Go recursion follows the value structure), every produced map,
slice or string is a fresh allocation, and nothing else is written. Returns
the extended heap and the address of the result. -/
def truncGo : Heap → JVal → Heap × Nat
  | h, .jobj fields =>
      let p := truncGoFields h fields
      (p.1 ++ [.obj p.2], p.1.length)
  | h, .jarr items =>
      let p := truncGoItems h items
      (p.1 ++ [.arr p.2], p.1.length)
  | h, .jstr s => (h ++ [.str (truncateHexValueS s)], h.length)
  | h, .jnull => (h ++ [.null], h.length)
  | h, .jbool b => (h ++ [.boolv b], h.length)
  | h, .jnum q => (h ++ [.num q], h.length)

/-- Heap-level processing of a map's entries. -/
def truncGoFields : Heap → List (String × JVal) → Heap × List (String × Nat)
  | h, [] => (h, [])
  | h, (k, v) :: rest =>
      let p := truncGo h v
      let q := truncGoFields p.1 rest
      (q.1, (k, p.2) :: q.2)

/-- Heap-level processing of a slice's entries. -/
def truncGoItems : Heap → List JVal → Heap × List Nat
  | h, [] => (h, [])
  | h, v :: rest =>
      let p := truncGo h v
      let q := truncGoItems p.1 rest
      (q.1, p.2 :: q.2)

end

theorem get?_append_of_some {h ext : Heap} {a : Nat} {n : JNode} (hget : h.get? a = some n) :
    (h ++ ext).get? a = some n := by
  have hlt : a < h.length := by
    by_contra hc
    rw [List.get?_eq_none.mpr (by omega)] at hget
    exact Option.noConfusion hget
  rw [List.get?_append hlt]
  exact hget

/-- Extending the heap preserves every `Stores` fact. -/
theorem stores_append {h : Heap} {a : Nat} {v : JVal} (ext : Heap) (hst : Stores h a v) :
    Stores (h ++ ext) a v := by
  induction hst with
  | null hget => exact .null (get?_append_of_some hget)
  | boolv hget => exact .boolv (get?_append_of_some hget)
  | num hget => exact .num (get?_append_of_some hget)
  | str hget => exact .str (get?_append_of_some hget)
  | arr hget hlen _ ih =>
      exact .arr (get?_append_of_some hget) hlen (fun i b v hb hv => ih i b v hb hv)
  | obj hget hkeys hlen _ ih =>
      exact .obj (get?_append_of_some hget) hkeys hlen (fun i b v hb hv => ih i b v hb hv)

mutual

/-- `truncGo` only appends to the heap. -/
theorem truncGo_extends : ∀ (v : JVal) (h : Heap), ∃ ext, (truncGo h v).1 = h ++ ext
  | .jobj fields, h => by
      obtain ⟨e, he⟩ := truncGoFields_extends fields h
      exact ⟨e ++ [.obj (truncGoFields h fields).2], by simp [truncGo, he]⟩
  | .jarr items, h => by
      obtain ⟨e, he⟩ := truncGoItems_extends items h
      exact ⟨e ++ [.arr (truncGoItems h items).2], by simp [truncGo, he]⟩
  | .jstr s, h => ⟨[.str (truncateHexValueS s)], rfl⟩
  | .jnull, h => ⟨[.null], rfl⟩
  | .jbool b, h => ⟨[.boolv b], rfl⟩
  | .jnum q, h => ⟨[.num q], rfl⟩

theorem truncGoFields_extends : ∀ (fields : List (String × JVal)) (h : Heap),
    ∃ ext, (truncGoFields h fields).1 = h ++ ext
  | [], h => ⟨[], by simp [truncGoFields]⟩
  | (k, v) :: rest, h => by
      obtain ⟨e₁, he₁⟩ := truncGo_extends v h
      obtain ⟨e₂, he₂⟩ := truncGoFields_extends rest (truncGo h v).1
      refine ⟨e₁ ++ e₂, ?_⟩
      show (truncGoFields (truncGo h v).1 rest).1 = h ++ (e₁ ++ e₂)
      rw [he₂, he₁, List.append_assoc]

theorem truncGoItems_extends : ∀ (items : List JVal) (h : Heap),
    ∃ ext, (truncGoItems h items).1 = h ++ ext
  | [], h => ⟨[], by simp [truncGoItems]⟩
  | v :: rest, h => by
      obtain ⟨e₁, he₁⟩ := truncGo_extends v h
      obtain ⟨e₂, he₂⟩ := truncGoItems_extends rest (truncGo h v).1
      refine ⟨e₁ ++ e₂, ?_⟩
      show (truncGoItems (truncGo h v).1 rest).1 = h ++ (e₁ ++ e₂)
      rw [he₂, he₁, List.append_assoc]

end

mutual

/-- The heap execution returns an address storing exactly the tree the pure
`truncateHexInTree` computes. -/
theorem truncGo_stores : ∀ (v : JVal) (h : Heap),
    Stores (truncGo h v).1 (truncGo h v).2 (truncateHexInTree v)
  | .jobj fields, h => by
      obtain ⟨hkeys, hlen, hch⟩ := truncGoFields_stores fields h
      show Stores ((truncGoFields h fields).1 ++ [.obj (truncGoFields h fields).2])
        (truncGoFields h fields).1.length (.jobj (truncateHexFields fields))
      refine Stores.obj (List.get?_concat_length _ _) hkeys hlen
        (fun i b v hb hv => stores_append _ (hch i b v hb hv))
  | .jarr items, h => by
      obtain ⟨hlen, hch⟩ := truncGoItems_stores items h
      show Stores ((truncGoItems h items).1 ++ [.arr (truncGoItems h items).2])
        (truncGoItems h items).1.length (.jarr (truncateHexItems items))
      exact Stores.arr (List.get?_concat_length _ _) hlen
        (fun i b v hb hv => stores_append _ (hch i b v hb hv))
  | .jstr s, h => Stores.str (List.get?_concat_length _ _)
  | .jnull, h => Stores.null (List.get?_concat_length _ _)
  | .jbool b, h => Stores.boolv (List.get?_concat_length _ _)
  | .jnum q, h => Stores.num (List.get?_concat_length _ _)

theorem truncGoFields_stores : ∀ (fields : List (String × JVal)) (h : Heap),
    ((truncGoFields h fields).2.map Prod.fst = (truncateHexFields fields).map Prod.fst)
    ∧ (truncGoFields h fields).2.length = (truncateHexFields fields).length
    ∧ ∀ i b v, ((truncGoFields h fields).2.map Prod.snd).get? i = some b →
        ((truncateHexFields fields).map Prod.snd).get? i = some v →
        Stores (truncGoFields h fields).1 b v
  | [], h => by
      refine ⟨rfl, rfl, fun i b v hb hv => ?_⟩
      simp [truncGoFields, truncateHexFields] at hb
  | (k, v) :: rest, h => by
      obtain ⟨hkeys, hlen, hch⟩ := truncGoFields_stores rest (truncGo h v).1
      have hv0 := truncGo_stores v h
      obtain ⟨ext, hext⟩ := truncGoFields_extends rest (truncGo h v).1
      refine ⟨?_, ?_, ?_⟩
      · show k :: (truncGoFields (truncGo h v).1 rest).2.map Prod.fst
          = k :: (truncateHexFields rest).map Prod.fst
        rw [hkeys]
      · show (truncGoFields (truncGo h v).1 rest).2.length + 1
          = (truncateHexFields rest).length + 1
        rw [hlen]
      · intro i b w hb hw
        match i with
        | 0 =>
            simp only [truncGoFields, truncateHexFields, List.map_cons, List.get?] at hb hw
            cases hb; cases hw
            show Stores (truncGoFields (truncGo h v).1 rest).1 (truncGo h v).2
              (truncateHexInTree v)
            rw [hext]
            exact stores_append ext hv0
        | Nat.succ j =>
            simp only [truncGoFields, truncateHexFields, List.map_cons, List.get?] at hb hw
            exact hch j b w hb hw

theorem truncGoItems_stores : ∀ (items : List JVal) (h : Heap),
    (truncGoItems h items).2.length = (truncateHexItems items).length
    ∧ ∀ i b v, (truncGoItems h items).2.get? i = some b →
        (truncateHexItems items).get? i = some v →
        Stores (truncGoItems h items).1 b v
  | [], h => by
      refine ⟨rfl, fun i b v hb hv => ?_⟩
      simp [truncGoItems, truncateHexItems] at hb
  | v :: rest, h => by
      obtain ⟨hlen, hch⟩ := truncGoItems_stores rest (truncGo h v).1
      have hv0 := truncGo_stores v h
      obtain ⟨ext, hext⟩ := truncGoItems_extends rest (truncGo h v).1
      refine ⟨?_, ?_⟩
      · show (truncGoItems (truncGo h v).1 rest).2.length + 1
          = (truncateHexItems rest).length + 1
        rw [hlen]
      · intro i b w hb hw
        match i with
        | 0 =>
            simp only [truncGoItems, truncateHexItems, List.get?] at hb hw
            cases hb; cases hw
            show Stores (truncGoItems (truncGo h v).1 rest).1 (truncGo h v).2
              (truncateHexInTree v)
            rw [hext]
            exact stores_append ext hv0
        | Nat.succ j =>
            simp only [truncGoItems, truncateHexItems, List.get?] at hb hw
            exact hch j b w hb hw

end

/-- C6: `truncateHexInTree` never mutates its input. Executed on the explicit
heap, every pre-existing address keeps its node (so module dispatch, reading
the original tree, observes the original values — including long hex strings),
the input tree is still stored unchanged at its address, and the returned
address stores the truncated tree. -/
theorem truncateHexInTree_no_mutation (h : Heap) (a : Nat) (v : JVal)
    (hst : Stores h a v) :
    (∀ b : Nat, b < h.length → (truncGo h v).1.get? b = h.get? b)
    ∧ Stores (truncGo h v).1 a v
    ∧ Stores (truncGo h v).1 (truncGo h v).2 (truncateHexInTree v) := by
  obtain ⟨ext, hext⟩ := truncGo_extends v h
  refine ⟨?_, ?_, truncGo_stores v h⟩
  · intro b hb
    rw [hext, List.get?_append hb]
  · rw [hext]
    exact stores_append ext hst

/-- Witness for C6 at a one-node heap holding a long hex string. -/
theorem truncateHexInTree_no_mutation_witness :
    Stores [JNode.str "0xdeadbeef"] 0 (JVal.jstr "0xdeadbeef")
    ∧ (truncGo [JNode.str "0xdeadbeef"] (JVal.jstr "0xdeadbeef")).1.get? 0
        = some (JNode.str "0xdeadbeef") := by
  refine ⟨Stores.str rfl, ?_⟩
  have := (truncateHexInTree_no_mutation [JNode.str "0xdeadbeef"] 0
    (JVal.jstr "0xdeadbeef") (Stores.str rfl)).1 0 (by decide)
  rw [this]
  rfl

/-! ## Ordered processor (snooper/ordered_processor.go)

State: `sequenceCounter` (last issued), `nextSequence` (starts at 1),
`activeSequences` (issued, not yet completed). The `select` at the end of
`WaitForSequence` is modeled by a `WaitOutcome`: which of the three channels
fires when the caller actually has to block. -/

structure OPState where
  sequenceCounter : Nat
  nextSequence : Nat
  active : List Nat
deriving Repr

/-- `NewOrderedProcessor`. -/
def opInit : OPState := ⟨0, 1, []⟩

/-- `GetNextSequence`: increments the counter, marks the new sequence active,
returns it. -/
def getNextSequence (s : OPState) : OPState × Nat :=
  (⟨s.sequenceCounter + 1, s.nextSequence, (s.sequenceCounter + 1) :: s.active⟩,
    s.sequenceCounter + 1)

/-- Loop body of `skipCompletedSequences`, with explicit fuel. -/
def skipAux : Nat → OPState → OPState
  | 0, s => s
  | fuel + 1, s =>
      if s.nextSequence ≤ s.sequenceCounter ∧ s.nextSequence ∉ s.active then
        skipAux fuel ⟨s.sequenceCounter, s.nextSequence + 1, s.active⟩
      else s

/-- `skipCompletedSequences`: advance `nextSequence` past completed sequences.
The fuel `sequenceCounter + 1 - nextSequence` bounds the loop (each iteration
increments `nextSequence`, which never passes `sequenceCounter + 1`). -/
def skipCompletedSequences (s : OPState) : OPState :=
  skipAux (s.sequenceCounter + 1 - s.nextSequence) s

/-- `CompleteSequence`: remove from the active set, then skip. -/
def completeSequence (s : OPState) (seq : Nat) : OPState :=
  skipCompletedSequences ⟨s.sequenceCounter, s.nextSequence, s.active.filter (· ≠ seq)⟩

/-- Which arm of the `select` in `WaitForSequence` fires when the caller
blocks: its waiter channel is closed, the 5-second timer fires, or the
processor is stopped. -/
inductive WaitOutcome where
  | wake
  | timeout
  | stop
deriving DecidableEq, Repr

/-- `WaitForSequence`: skip completed sequences; if `sequence ≤ nextSequence`
return `true` immediately, otherwise block and return `true` on wake-up or
timeout and `false` on stop. -/
def waitForSequence (s : OPState) (seq : Nat) (outcome : WaitOutcome) : OPState × Bool :=
  let s' := skipCompletedSequences s
  if seq ≤ s'.nextSequence then (s', true)
  else
    match outcome with
    | .wake => (s', true)
    | .timeout => (s', true)
    | .stop => (s', false)

/-- Invariant of reachable ordered-processor states: `nextSequence` is between
1 and `sequenceCounter + 1`, everything below `nextSequence` is completed, and
active sequences are issued ones. -/
def OPInv (s : OPState) : Prop :=
  1 ≤ s.nextSequence ∧ s.nextSequence ≤ s.sequenceCounter + 1
    ∧ (∀ k < s.nextSequence, k ∉ s.active)
    ∧ (∀ k ∈ s.active, 1 ≤ k ∧ k ≤ s.sequenceCounter)

theorem skipAux_counter (fuel : Nat) (s : OPState) :
    (skipAux fuel s).sequenceCounter = s.sequenceCounter := by
  induction fuel generalizing s with
  | zero => rfl
  | succ n ih =>
      unfold skipAux
      split
      · rw [ih]
      · rfl

theorem skipAux_active (fuel : Nat) (s : OPState) :
    (skipAux fuel s).active = s.active := by
  induction fuel generalizing s with
  | zero => rfl
  | succ n ih =>
      unfold skipAux
      split
      · rw [ih]
      · rfl

theorem skipAux_next_ge (fuel : Nat) (s : OPState) :
    s.nextSequence ≤ (skipAux fuel s).nextSequence := by
  induction fuel generalizing s with
  | zero => exact le_refl _
  | succ n ih =>
      unfold skipAux
      split
      · exact le_trans (Nat.le_succ _)
          (ih ⟨s.sequenceCounter, s.nextSequence + 1, s.active⟩)
      · exact le_refl _

theorem skipAux_low_inactive (fuel : Nat) (s : OPState)
    (hlow : ∀ k < s.nextSequence, k ∉ s.active) :
    ∀ k < (skipAux fuel s).nextSequence, k ∉ (skipAux fuel s).active := by
  induction fuel generalizing s with
  | zero => exact hlow
  | succ n ih =>
      unfold skipAux
      split
      · next hc =>
          refine ih _ (fun k hk => ?_)
          rcases Nat.lt_succ_iff_lt_or_eq.mp hk with hk' | hk'
          · exact hlow k hk'
          · subst hk'; exact hc.2
      · exact hlow

theorem skipAux_stops (fuel : Nat) (s : OPState)
    (hfuel : s.sequenceCounter + 1 - s.nextSequence ≤ fuel) :
    ¬((skipAux fuel s).nextSequence ≤ (skipAux fuel s).sequenceCounter
      ∧ (skipAux fuel s).nextSequence ∉ (skipAux fuel s).active) := by
  induction fuel generalizing s with
  | zero =>
      intro hc
      simp only [skipAux] at hc
      omega
  | succ n ih =>
      unfold skipAux
      split
      · next hc => exact ih _ (by simp only; omega)
      · next hc => exact hc

theorem skipAux_bound (fuel : Nat) (s : OPState)
    (hub : s.nextSequence ≤ s.sequenceCounter + 1) :
    (skipAux fuel s).nextSequence ≤ (skipAux fuel s).sequenceCounter + 1 := by
  induction fuel generalizing s with
  | zero => exact hub
  | succ n ih =>
      unfold skipAux
      split
      · next hc => exact ih _ (by simp only; omega)
      · exact hub

theorem skipCompleted_counter (s : OPState) :
    (skipCompletedSequences s).sequenceCounter = s.sequenceCounter :=
  skipAux_counter _ _

theorem skipCompleted_active (s : OPState) :
    (skipCompletedSequences s).active = s.active :=
  skipAux_active _ _

theorem skipCompleted_post (s : OPState) (hinv : OPInv s) :
    (skipCompletedSequences s).nextSequence ∈ s.active
    ∨ (skipCompletedSequences s).nextSequence = s.sequenceCounter + 1 := by
  have hstop := skipAux_stops (s.sequenceCounter + 1 - s.nextSequence) s (le_refl _)
  have hbound := skipAux_bound (s.sequenceCounter + 1 - s.nextSequence) s hinv.2.1
  rw [show skipAux (s.sequenceCounter + 1 - s.nextSequence) s = skipCompletedSequences s from rfl]
    at hstop hbound
  rw [skipCompleted_counter s, skipCompleted_active s] at hstop
  rw [skipCompleted_counter s] at hbound
  by_cases hmem : (skipCompletedSequences s).nextSequence ∈ s.active
  · exact Or.inl hmem
  · right
    have hgt : ¬ ((skipCompletedSequences s).nextSequence ≤ s.sequenceCounter) :=
      fun hle => hstop ⟨hle, hmem⟩
    omega

theorem opInit_inv : OPInv opInit :=
  ⟨by decide, by decide, by decide, by decide⟩

theorem skipCompleted_inv (s : OPState) (hinv : OPInv s) :
    OPInv (skipCompletedSequences s) := by
  obtain ⟨h1, h2, h3, h4⟩ := hinv
  have hge := skipAux_next_ge (s.sequenceCounter + 1 - s.nextSequence) s
  have hbd := skipAux_bound (s.sequenceCounter + 1 - s.nextSequence) s h2
  have hlow := skipAux_low_inactive (s.sequenceCounter + 1 - s.nextSequence) s h3
  rw [show skipAux (s.sequenceCounter + 1 - s.nextSequence) s = skipCompletedSequences s from rfl]
    at hge hbd hlow
  refine ⟨le_trans h1 hge, hbd, hlow, ?_⟩
  rw [skipCompleted_active s, skipCompleted_counter s]
  exact h4

theorem getNextSequence_inv (s : OPState) (hinv : OPInv s) :
    OPInv (getNextSequence s).1 := by
  obtain ⟨h1, h2, h3, h4⟩ := hinv
  show OPInv ⟨s.sequenceCounter + 1, s.nextSequence, (s.sequenceCounter + 1) :: s.active⟩
  refine ⟨h1, show s.nextSequence ≤ s.sequenceCounter + 1 + 1 by omega, ?_, ?_⟩
  · intro k hk
    have hk' : k < s.nextSequence := hk
    simp only [List.mem_cons]
    rintro (hc | hc)
    · omega
    · exact h3 k hk' hc
  · intro k hk
    have hk' : k ∈ (s.sequenceCounter + 1) :: s.active := hk
    simp only [List.mem_cons] at hk'
    show 1 ≤ k ∧ k ≤ s.sequenceCounter + 1
    rcases hk' with hc | hc
    · omega
    · have := h4 k hc
      omega

theorem completeSequence_inv (s : OPState) (seq : Nat) (hinv : OPInv s) :
    OPInv (completeSequence s seq) := by
  obtain ⟨h1, h2, h3, h4⟩ := hinv
  refine skipCompleted_inv _ ⟨h1, h2, ?_, ?_⟩
  · intro k hk hmem
    exact h3 k hk (List.mem_of_mem_filter hmem)
  · intro k hk
    exact h4 k (List.mem_of_mem_filter hk)

theorem waitForSequence_inv (s : OPState) (seq : Nat) (outcome : WaitOutcome)
    (hinv : OPInv s) : OPInv (waitForSequence s seq outcome).1 := by
  have h := skipCompleted_inv s hinv
  by_cases himm : seq ≤ (skipCompletedSequences s).nextSequence
  · simpa [waitForSequence, himm] using h
  · cases outcome <;> simpa [waitForSequence, himm] using h

/-- C3: on any invariant-satisfying ordered-processor state,
`GetNextSequence` returns `sequenceCounter + 1` — strictly greater than every
previously issued sequence (the counter never decreases under any operation,
so every earlier return is ≤ `sequenceCounter`) — and marks it active; for an
issued `seq`, `WaitForSequence seq` takes its immediate-return branch exactly
when every issued sequence strictly below `seq` has completed (is no longer
active); and the call returns `false` exactly when it had to block and the
`select` was released by `stopChan` — a wake-up or the 5-second timer both
yield `true`. -/
theorem orderedProcessor_spec (s : OPState) (hinv : OPInv s)
    (seq : Nat) (hseq : 1 ≤ seq ∧ seq ≤ s.sequenceCounter) (outcome : WaitOutcome) :
    ((getNextSequence s).2 = s.sequenceCounter + 1
      ∧ (∀ k ≤ s.sequenceCounter, k < (getNextSequence s).2)
      ∧ (getNextSequence s).2 ∈ (getNextSequence s).1.active)
    ∧ ((seq ≤ (skipCompletedSequences s).nextSequence) ↔ (∀ k < seq, k ∉ s.active))
    ∧ ((waitForSequence s seq outcome).2 = false ↔
        (¬ seq ≤ (skipCompletedSequences s).nextSequence ∧ outcome = .stop))
    ∧ ((getNextSequence s).1.sequenceCounter = s.sequenceCounter + 1
      ∧ (completeSequence s seq).sequenceCounter = s.sequenceCounter
      ∧ (waitForSequence s seq outcome).1.sequenceCounter = s.sequenceCounter) := by
  refine ⟨⟨rfl, fun k hk => by simp only [getNextSequence]; omega,
    by simp [getNextSequence]⟩, ?_, ?_, rfl, skipCompleted_counter _, ?_⟩
  · constructor
    · intro himm k hk
      have hlow := skipAux_low_inactive (s.sequenceCounter + 1 - s.nextSequence) s hinv.2.2.1
      rw [show skipAux (s.sequenceCounter + 1 - s.nextSequence) s
        = skipCompletedSequences s from rfl] at hlow
      rw [skipCompleted_active s] at hlow
      exact hlow k (by omega)
    · intro hall
      rcases skipCompleted_post s hinv with hmem | heq
      · by_contra hlt
        push_neg at hlt
        exact hall _ hlt hmem
      · rw [heq]
        omega
  · by_cases himm : seq ≤ (skipCompletedSequences s).nextSequence
    · simp [waitForSequence, himm]
    · cases outcome <;> simp [waitForSequence, himm]
  · by_cases himm : seq ≤ (skipCompletedSequences s).nextSequence
    · simp [waitForSequence, himm, skipCompleted_counter]
    · cases outcome <;> simp [waitForSequence, himm, skipCompleted_counter]

/-- Witness for C3: state with sequences 1..3 issued, 1 and 2 completed,
3 still active; a waiter for 3 is eligible to return immediately. -/
theorem orderedProcessor_spec_witness :
    OPInv ⟨3, 1, [3]⟩
    ∧ (3 ≤ (skipCompletedSequences ⟨3, 1, ([3] : List Nat)⟩).nextSequence
        ↔ ∀ k < 3, k ∉ ([3] : List Nat)) :=
  ⟨⟨by decide, by decide, by decide, by decide⟩,
    (orderedProcessor_spec ⟨3, 1, [3]⟩
      ⟨by decide, by decide, by decide, by decide⟩ 3 ⟨by decide, by decide⟩
      WaitOutcome.stop).2.1⟩

/-! ## Proxy call flow (snooper/proxycall.go: processProxyCall)

The embedded control flow covers the observable decisions of
`processProxyCall`: the flow-enabled gate (503 + JSON error body, nothing
forwarded), the event-stream vs buffered dispatch
(`isEventStream && resp.StatusCode == 200`), and the `callDuration`
computation (`time.Since(callStart)` taken immediately after `client.Do`
returns, i.e. at header arrival) that is handed unchanged to
`createResponseProcessingStream` and ends up as the response record's
`Duration`. Times are instants in milliseconds. -/

/-- Insert a field into a key-sorted field list (Go's `encoding/json` writes
map keys in sorted order). -/
def insertFieldSorted (p : String × JVal) : List (String × JVal) → List (String × JVal)
  | [] => [p]
  | q :: rest => if p.1 ≤ q.1 then p :: q :: rest else q :: insertFieldSorted p rest

/-- Canonical (key-sorted) encoding of a Go `map[string]any` JSON object, as
`json.NewEncoder(...).Encode` produces it. Two field lists denote the same
JSON object exactly when their canonical forms agree. -/
def goEncodeObject : List (String × JVal) → List (String × JVal)
  | [] => []
  | p :: rest => insertFieldSorted p (goEncodeObject rest)

/-- Flow-control state of the `Snooper` touched by `processProxyCall`:
the `flowEnabled` flag and the per-call index counter (a call context is
created exactly when the counter advances). -/
structure FlowState where
  flowEnabled : Bool
  callIndexCounter : Nat
deriving Repr, DecidableEq

/-- The part of the inbound request the dispatch decision reads:
`r.URL.EscapedPath()`. -/
structure InboundRequest where
  path : String
deriving Repr, DecidableEq

/-- The upstream response as seen by `processProxyCall`: status code,
`Content-Type` header, the instant `client.Do` returned (headers), and the
instant the body read returned EOF. -/
structure UpstreamResponse where
  statusCode : Nat
  contentType : String
  tHeaders : Nat
  tEOF : Nat
deriving Repr, DecidableEq

/-- What `processProxyCall` does with the upstream response. `rejected`
carries the status and JSON body written without contacting the upstream;
`buffered` carries the `callDuration` value handed to
`createResponseProcessingStream`. -/
inductive ProxyOutcome where
  | rejected (status : Nat) (body : List (String × JVal))
  | eventStream (status : Nat)
  | buffered (status : Nat) (respLogDuration : Nat)
deriving Repr

/-- The `isEventStream` test from the source:
`respContentType == "text/event-stream" || strings.HasPrefix(r.URL.EscapedPath(), "/eth/v1/events")`. -/
def isEventStream (respContentType reqPath : String) : Bool :=
  respContentType == "text/event-stream" || reqPath.startsWith "/eth/v1/events"

/-- The body written when the flow is disabled (Go map literal; the encoder
sorts the keys). -/
def disabledBody : List (String × JVal) :=
  goEncodeObject
    [("status", .jstr "error"), ("message", .jstr "Proxy flow is currently disabled")]

/-- `processProxyCall` control flow: disabled gate, call-context creation,
upstream call timing, and event-stream vs buffered dispatch. -/
def processProxyCall (s : FlowState) (req : InboundRequest) (tStart : Nat)
    (resp : UpstreamResponse) : FlowState × ProxyOutcome :=
  if s.flowEnabled = false then
    (s, .rejected 503 disabledBody)
  else
    let s' : FlowState := ⟨s.flowEnabled, s.callIndexCounter + 1⟩
    let callDuration := resp.tHeaders - tStart
    if isEventStream resp.contentType req.path && (resp.statusCode == 200) then
      (s', .eventStream resp.statusCode)
    else
      (s', .buffered resp.statusCode callDuration)

/-- `handleStop` from the management API: clears `flowEnabled` and answers
200 with a success body. -/
def handleStop (s : FlowState) : FlowState × (Nat × List (String × JVal)) :=
  (⟨false, s.callIndexCounter⟩,
    (200, goEncodeObject
      [("status", .jstr "success"), ("message", .jstr "Flow stopped"),
        ("enabled", .jbool false)]))

/-- C7: with the enabled flag false, every proxied request is answered 503
with exactly the JSON object `{"status":"error","message":"Proxy flow is
currently disabled"}` (compared as JSON objects, i.e. canonical key-sorted
form), the state is untouched — no call context is created, nothing reaches
the upstream — and after `handleStop` the flag is false, so any subsequent
proxied call is rejected the same way. -/
theorem proxy_disabled_rejects (s : FlowState) (req : InboundRequest)
    (tStart : Nat) (resp : UpstreamResponse) (hdis : s.flowEnabled = false) :
    processProxyCall s req tStart resp
      = (s, .rejected 503 (goEncodeObject
          [("status", JVal.jstr "error"),
            ("message", JVal.jstr "Proxy flow is currently disabled")]))
    ∧ (processProxyCall s req tStart resp).1 = s
    ∧ (∀ s₀ : FlowState, (handleStop s₀).1.flowEnabled = false)
    ∧ (∀ s₀ : FlowState, processProxyCall (handleStop s₀).1 req tStart resp
        = ((handleStop s₀).1, .rejected 503 disabledBody)) := by
  refine ⟨?_, ?_, fun s₀ => rfl, fun s₀ => ?_⟩
  · simp [processProxyCall, hdis, disabledBody]
  · simp [processProxyCall, hdis]
  · simp [processProxyCall, handleStop]

/-- Witness for C7 at a concrete stopped state. -/
theorem proxy_disabled_rejects_witness :
    (FlowState.mk false 7).flowEnabled = false
    ∧ processProxyCall ⟨false, 7⟩ ⟨"/eth/v1/node/version"⟩ 3
        ⟨200, "application/json", 4, 9⟩
      = (⟨false, 7⟩, .rejected 503 (goEncodeObject
          [("status", JVal.jstr "error"),
            ("message", JVal.jstr "Proxy flow is currently disabled")])) :=
  ⟨rfl, (proxy_disabled_rejects ⟨false, 7⟩ ⟨"/eth/v1/node/version"⟩ 3
    ⟨200, "application/json", 4, 9⟩ rfl).1⟩

/-- C2 counterexample: an upstream response with `Content-Type:
text/event-stream` but status 500 satisfies the claim's condition for the
event-stream path, yet `processProxyCall` (which additionally requires
`resp.StatusCode == 200`) routes it through the buffered-stream path. -/
theorem eventStream_dispatch_counterexample :
    isEventStream "text/event-stream" "/canonical" = true
    ∧ (processProxyCall ⟨true, 0⟩ ⟨"/canonical"⟩ 0
        ⟨500, "text/event-stream", 1, 2⟩).2 = ProxyOutcome.buffered 500 1 :=
  ⟨rfl, rfl⟩

/-- C2 (amended): with the flow enabled, the proxy takes the event-stream
path exactly when (`Content-Type` equals `text/event-stream` or the request
path begins with `/eth/v1/events`) AND the upstream status code is 200;
otherwise it takes the buffered-stream path. -/
theorem eventStream_dispatch_amended (s : FlowState) (req : InboundRequest)
    (tStart : Nat) (resp : UpstreamResponse) (hen : s.flowEnabled = true) :
    ((processProxyCall s req tStart resp).2 = ProxyOutcome.eventStream resp.statusCode
      ↔ (isEventStream resp.contentType req.path = true ∧ resp.statusCode = 200))
    ∧ ((isEventStream resp.contentType req.path = false ∨ resp.statusCode ≠ 200) →
        (processProxyCall s req tStart resp).2
          = ProxyOutcome.buffered resp.statusCode (resp.tHeaders - tStart)) := by
  cases hc : (isEventStream resp.contentType req.path && (resp.statusCode == 200)) with
  | true =>
      rw [Bool.and_eq_true, beq_iff_eq] at hc
      constructor
      · simp [processProxyCall, hen, hc]
      · intro hcontra
        rcases hcontra with hf | hne
        · rw [hc.1] at hf; exact Bool.noConfusion hf
        · exact absurd hc.2 hne
  | false =>
      constructor
      · simp only [processProxyCall, hen, Bool.true_eq_false, if_false, hc, Bool.false_eq_true]
        constructor
        · intro hout
          exact absurd hout (by simp)
        · intro ⟨h1, h2⟩
          exfalso
          rw [h1, h2] at hc
          simp at hc
      · intro _
        simp [processProxyCall, hen, hc]

/-- Witness for the amended C2 at a concrete SSE response. -/
theorem eventStream_dispatch_amended_witness :
    (processProxyCall ⟨true, 0⟩ ⟨"/eth/v1/events"⟩ 0
      ⟨200, "text/event-stream", 1, 2⟩).2 = ProxyOutcome.eventStream 200 :=
  ((eventStream_dispatch_amended ⟨true, 0⟩ ⟨"/eth/v1/events"⟩ 0
    ⟨200, "text/event-stream", 1, 2⟩ rfl).1).mpr ⟨rfl, rfl⟩

/-- The duration the spec's words require for the buffered path: from the
moment the proxy issued the upstream request to the moment the response body
read returned EOF. -/
def specCallDuration (tStart : Nat) (resp : UpstreamResponse) : Nat :=
  resp.tEOF - tStart

/-- C1: the code computes `callDuration := time.Since(callStart)` immediately
after `client.Do` returns — at header arrival — and hands that value to the
response logging path. With the upstream flushing headers at t=5 and the body
reaching EOF at t=205 (the scenario of
`TestCallDurationIncludesResponseBodyTransfer`), the logged duration is 5,
while the claim requires 205. -/
theorem call_duration_stops_at_headers :
    (processProxyCall ⟨true, 0⟩ ⟨"/"⟩ 0 ⟨200, "application/json", 5, 205⟩).2
      = ProxyOutcome.buffered 200 5
    ∧ specCallDuration 0 ⟨200, "application/json", 5, 205⟩ = 205
    ∧ (5 : Nat) ≠ 205 :=
  ⟨rfl, rfl, by decide⟩

/-! ## Buffered tee log stream (snooper/logging.go: logReadCloser.Close)

`createTeeLogStreamWithSizeHint` wraps the source stream in a
`TeeReader`-backed `logReadCloser`. `Close` checks the `closed` flag, drains
the remaining source bytes through the tee into the capture buffer, closes
the original stream, and spawns the logging callback over the captured
bytes. Bytes are modeled as `Nat`. -/

/-- State of a `logReadCloser`: the `closed` flag, the bytes already teed
into the buffer, the bytes still unread in the source, whether the original
stream has been closed, the error the original stream will report on close,
and the list of byte slices handed to spawned logging callbacks. -/
structure TeeLogState where
  closed : Bool
  captured : List Nat
  residual : List Nat
  originalClosed : Bool
  sourceCloseErr : Option String
  spawned : List (List Nat)
deriving Repr, DecidableEq

/-- `createTeeLogStreamWithSizeHint`: fresh stream over a source with the
given pending bytes (the size hint only pre-allocates; it is not observable
here). -/
def createTeeLogStream (source : List Nat) (err : Option String) : TeeLogState :=
  ⟨false, [], source, false, err, []⟩

/-- `logReadCloser.Close`: no-op returning nil when already closed; otherwise
drain the tee into the buffer, close the original stream (propagating its
error), and spawn the logging callback once over the captured bytes. -/
def teeClose (s : TeeLogState) : TeeLogState × Option String :=
  if s.closed then (s, none)
  else
    (⟨true, s.captured ++ s.residual, [], true, s.sourceCloseErr,
      s.spawned ++ [s.captured ++ s.residual]⟩, s.sourceCloseErr)

/-- C10: on a not-yet-closed tee log stream, the first `Close` drains the
residual source into the capture buffer, closes the original stream, spawns
the logging callback exactly once over the captured bytes, and returns the
original stream's close error; the state after any `Close` is closed, and on
a closed stream `Close` is the identity and returns nil — so the drain,
close and spawn effects happen exactly once. -/
theorem teeClose_idempotent (s : TeeLogState) (hopen : s.closed = false) :
    (teeClose s).1.captured = s.captured ++ s.residual
    ∧ (teeClose s).1.residual = []
    ∧ (teeClose s).1.originalClosed = true
    ∧ (teeClose s).1.spawned = s.spawned ++ [s.captured ++ s.residual]
    ∧ (teeClose s).2 = s.sourceCloseErr
    ∧ teeClose (teeClose s).1 = ((teeClose s).1, none)
    ∧ (∀ t : TeeLogState, t.closed = true → teeClose t = (t, none)) := by
  have hstep : teeClose s
      = (⟨true, s.captured ++ s.residual, [], true, s.sourceCloseErr,
          s.spawned ++ [s.captured ++ s.residual]⟩, s.sourceCloseErr) := by
    simp [teeClose, hopen]
  refine ⟨by rw [hstep], by rw [hstep], by rw [hstep], by rw [hstep], by rw [hstep],
    by rw [hstep]; simp [teeClose], fun t ht => by simp [teeClose, ht]⟩

/-- Witness for C10 on a stream with two teed bytes and one residual byte. -/
theorem teeClose_idempotent_witness :
    (createTeeLogStream [10, 20, 30] (some "closefail")).closed = false
    ∧ (teeClose ⟨false, [10, 20], [30], false, some "closefail", []⟩).1.spawned
        = [[10, 20, 30]]
    ∧ teeClose (teeClose ⟨false, [10, 20], [30], false, some "closefail", []⟩).1
        = ((teeClose ⟨false, [10, 20], [30], false, some "closefail", []⟩).1, none) :=
  ⟨rfl,
    (teeClose_idempotent ⟨false, [10, 20], [30], false, some "closefail", []⟩ rfl).2.2.2.1,
    (teeClose_idempotent ⟨false, [10, 20], [30], false, some "closefail", []⟩ rfl).2.2.2.2.2.1⟩

/-! ## Request/response phase ordering within one call (C4)

`createRequestProcessingStream` runs `logRequest` (which includes module
request dispatch) and then `close(callCtx.reqSentChan)`;
`createResponseProcessingStream` first blocks on `<-callCtx.reqSentChan` and
only then runs `logResponse` (which includes module response dispatch). The
two callbacks run concurrently; we model every interleaving that respects
each callback's program order and the channel rule — the receive can only
fire after the close — and prove request dispatch precedes response dispatch
in every trace. -/

/-- The four synchronization-relevant events of one proxied call. -/
inductive PhaseEv where
  | reqModulesDone
  | reqSentClosed
  | reqSentRecv
  | respModulesStart
deriving DecidableEq, Repr

/-- Scheduler state: remaining program of each callback, whether
`reqSentChan` is closed, and the executed trace. -/
structure PhaseSched where
  reqRest : List PhaseEv
  respRest : List PhaseEv
  closed : Bool
  trace : List PhaseEv
deriving DecidableEq, Repr

/-- Both callbacks at their entry: request logging then close; receive then
response logging. -/
def phaseInit : PhaseSched :=
  ⟨[.reqModulesDone, .reqSentClosed], [.reqSentRecv, .respModulesStart], false, []⟩

/-- One scheduler step: run the next event of either callback; the response
callback's receive is only enabled once the channel is closed. -/
inductive PhaseStep : PhaseSched → PhaseSched → Prop where
  | req (s : PhaseSched) (e : PhaseEv) (rest : List PhaseEv) :
      s.reqRest = e :: rest →
      PhaseStep s ⟨rest, s.respRest, s.closed || (e == PhaseEv.reqSentClosed), s.trace ++ [e]⟩
  | resp (s : PhaseSched) (e : PhaseEv) (rest : List PhaseEv) :
      s.respRest = e :: rest →
      (e = .reqSentRecv → s.closed = true) →
      PhaseStep s ⟨s.reqRest, rest, s.closed, s.trace ++ [e]⟩

/-- `a` occurs strictly before `b` in the trace `l`. -/
def occursBefore (l : List PhaseEv) (a b : PhaseEv) : Prop :=
  ∃ l₁ l₂ l₃, l = l₁ ++ a :: (l₂ ++ b :: l₃)

theorem occursBefore_append {l : List PhaseEv} {a b : PhaseEv} (e : PhaseEv)
    (h : occursBefore l a b) : occursBefore (l ++ [e]) a b := by
  obtain ⟨l₁, l₂, l₃, rfl⟩ := h
  exact ⟨l₁, l₂, l₃ ++ [e], by simp⟩

theorem occursBefore_of_mem {l : List PhaseEv} {a : PhaseEv} (b : PhaseEv)
    (h : a ∈ l) : occursBefore (l ++ [b]) a b := by
  obtain ⟨l₁, l₂, rfl⟩ := List.append_of_mem h
  exact ⟨l₁, l₂, [], by simp⟩

/-- Invariant of reachable scheduler states. -/
def PhaseInv (s : PhaseSched) : Prop :=
  (s.reqRest = [.reqModulesDone, .reqSentClosed]
      ∨ s.reqRest = [.reqSentClosed] ∨ s.reqRest = [])
  ∧ (s.respRest = [.reqSentRecv, .respModulesStart]
      ∨ s.respRest = [.respModulesStart] ∨ s.respRest = [])
  ∧ (s.closed = true → s.reqRest = [])
  ∧ ((s.respRest = [.respModulesStart] ∨ s.respRest = []) → s.closed = true)
  ∧ ((s.reqRest = [.reqSentClosed] ∨ s.reqRest = []) → .reqModulesDone ∈ s.trace)
  ∧ (.respModulesStart ∈ s.trace →
      occursBefore s.trace .reqModulesDone .respModulesStart)

theorem phaseInit_inv : PhaseInv phaseInit := by
  refine ⟨Or.inl rfl, Or.inl rfl, ?_, ?_, ?_, ?_⟩
  · intro h; exact absurd h (by simp [phaseInit])
  · intro h; rcases h with h | h <;> simp [phaseInit] at h
  · intro h; rcases h with h | h <;> simp [phaseInit] at h
  · intro h; simp [phaseInit] at h

theorem phaseStep_inv {s t : PhaseSched} (hinv : PhaseInv s) (hst : PhaseStep s t) :
    PhaseInv t := by
  obtain ⟨i1, i2, i3, i4, i5, i6⟩ := hinv
  cases hst with
  | req e rest hr =>
      have hclosed : s.closed = false := by
        cases hc : s.closed
        · rfl
        · rw [i3 hc] at hr; exact List.noConfusion hr
      rcases i1 with h | h | h
      · rw [h] at hr
        injection hr with he hrest
        subst he
        subst hrest
        refine ⟨Or.inr (Or.inl rfl), i2, ?_, ?_, ?_, ?_⟩
        · intro hcl
          simp [hclosed] at hcl
        · intro hresp
          exfalso
          have := i4 hresp
          rw [hclosed] at this
          exact Bool.noConfusion this
        · intro _
          simp
        · intro hm
          simp only [List.mem_append, List.mem_singleton] at hm
          rcases hm with hm | hm
          · exact occursBefore_append _ (i6 hm)
          · exact absurd hm (by decide)
      · rw [h] at hr
        injection hr with he hrest
        subst he
        subst hrest
        have hmem : PhaseEv.reqModulesDone ∈ s.trace := i5 (Or.inl h)
        refine ⟨Or.inr (Or.inr rfl), i2, fun _ => rfl, ?_, ?_, ?_⟩
        · intro hresp
          exfalso
          have := i4 hresp
          rw [hclosed] at this
          exact Bool.noConfusion this
        · intro _
          exact List.mem_append_left _ hmem
        · intro hm
          simp only [List.mem_append, List.mem_singleton] at hm
          rcases hm with hm | hm
          · exact occursBefore_append _ (i6 hm)
          · exact absurd hm (by decide)
      · rw [h] at hr
        exact List.noConfusion hr
  | resp e rest hr henabled =>
      rcases i2 with h | h | h
      · rw [h] at hr
        injection hr with he hrest
        subst he
        subst hrest
        have hcl : s.closed = true := henabled rfl
        refine ⟨i1, Or.inr (Or.inl rfl), i3, fun _ => hcl, ?_, ?_⟩
        · intro hreq
          exact List.mem_append_left _ (i5 hreq)
        · intro hm
          simp only [List.mem_append, List.mem_singleton] at hm
          rcases hm with hm | hm
          · exact occursBefore_append _ (i6 hm)
          · exact absurd hm (by decide)
      · rw [h] at hr
        injection hr with he hrest
        subst he
        subst hrest
        have hcl : s.closed = true := i4 (Or.inl h)
        have hmem : PhaseEv.reqModulesDone ∈ s.trace := i5 (Or.inr (i3 hcl))
        refine ⟨i1, Or.inr (Or.inr rfl), i3, fun _ => hcl, ?_, ?_⟩
        · intro hreq
          exact List.mem_append_left _ (i5 hreq)
        · intro _
          exact occursBefore_of_mem _ hmem
      · rw [h] at hr
        exact List.noConfusion hr

theorem phaseInv_reachable {s : PhaseSched}
    (hreach : Relation.ReflTransGen PhaseStep phaseInit s) : PhaseInv s := by
  induction hreach with
  | refl => exact phaseInit_inv
  | tail _ hstep ih => exact phaseStep_inv ih hstep

/-- C4: in every interleaving of the request-processing and
response-processing callbacks of one call that respects their program order
and the `reqSentChan` synchronization, if response-phase module dispatch has
started then request-phase dispatch and request logging occurred strictly
earlier in the trace. -/
theorem response_phase_after_request_phase (s : PhaseSched)
    (hreach : Relation.ReflTransGen PhaseStep phaseInit s)
    (hm : PhaseEv.respModulesStart ∈ s.trace) :
    occursBefore s.trace .reqModulesDone .respModulesStart :=
  (phaseInv_reachable hreach).2.2.2.2.2 hm

/-- Witness for C4: the only fully sequential schedule, executed step by
step. -/
theorem response_phase_after_request_phase_witness :
    occursBefore
      [PhaseEv.reqModulesDone, PhaseEv.reqSentClosed, PhaseEv.reqSentRecv,
        PhaseEv.respModulesStart]
      .reqModulesDone .respModulesStart := by
  have h1 : PhaseStep phaseInit
      ⟨[.reqSentClosed], [.reqSentRecv, .respModulesStart], false,
        [.reqModulesDone]⟩ := by
    have := PhaseStep.req phaseInit .reqModulesDone [.reqSentClosed] rfl
    simpa [phaseInit] using this
  have h2 : PhaseStep
      (⟨[.reqSentClosed], [.reqSentRecv, .respModulesStart], false,
        [.reqModulesDone]⟩ : PhaseSched)
      ⟨[], [.reqSentRecv, .respModulesStart], true,
        [.reqModulesDone, .reqSentClosed]⟩ := by
    have := PhaseStep.req
      (⟨[.reqSentClosed], [.reqSentRecv, .respModulesStart], false,
        [.reqModulesDone]⟩ : PhaseSched) .reqSentClosed [] rfl
    simpa using this
  have h3 : PhaseStep
      (⟨[], [.reqSentRecv, .respModulesStart], true,
        [.reqModulesDone, .reqSentClosed]⟩ : PhaseSched)
      ⟨[], [.respModulesStart], true,
        [.reqModulesDone, .reqSentClosed, .reqSentRecv]⟩ := by
    have := PhaseStep.resp
      (⟨[], [.reqSentRecv, .respModulesStart], true,
        [.reqModulesDone, .reqSentClosed]⟩ : PhaseSched)
      .reqSentRecv [.respModulesStart] rfl (fun _ => rfl)
    simpa using this
  have h4 : PhaseStep
      (⟨[], [.respModulesStart], true,
        [.reqModulesDone, .reqSentClosed, .reqSentRecv]⟩ : PhaseSched)
      ⟨[], [], true,
        [.reqModulesDone, .reqSentClosed, .reqSentRecv, .respModulesStart]⟩ := by
    have := PhaseStep.resp
      (⟨[], [.respModulesStart], true,
        [.reqModulesDone, .reqSentClosed, .reqSentRecv]⟩ : PhaseSched)
      .respModulesStart [] rfl (fun hc => by exact absurd hc (by decide))
    simpa using this
  have hreach : Relation.ReflTransGen PhaseStep phaseInit
      ⟨[], [], true,
        [.reqModulesDone, .reqSentClosed, .reqSentRecv, .respModulesStart]⟩ :=
    Relation.ReflTransGen.head h1 (Relation.ReflTransGen.head h2
      (Relation.ReflTransGen.head h3 (Relation.ReflTransGen.single h4)))
  exact response_phase_after_request_phase _ hreach (by decide)

/-! ## Module filter engine (modules/filter.go: ShouldProcessRequest,
evaluateJSONQuery)

The compiled gojq query is modeled by its output: a function from the input
value to the list of values the iterator yields, each either a proper value
or an error. `json.Unmarshal` of a bytes/string body is an external
collaborator, passed in as an oracle returning `none` on parse failure. -/

/-- One value yielded by the gojq iterator: an error or a JSON value. -/
inductive QVal where
  | errv (msg : String)
  | val (v : JVal)

/-- Truthiness as the loop in `evaluateJSONQuery` tests it: `nil` and `false`
are not truthy, everything else is (a `bool` is truthy iff it is `true`). -/
def truthy : JVal → Bool
  | .jnull => false
  | .jbool b => b
  | _ => true

/-- The `for { v, ok := iter.Next() ... }` loop: stop with `false` at the
first error, stop with `true` at the first truthy value, `false` when the
iterator is exhausted. -/
def runQueryLoop : List QVal → Bool
  | [] => false
  | .errv _ :: _ => false
  | .val v :: rest => if truthy v then true else runQueryLoop rest

/-- The query output contains a truthy value that occurs strictly before any
error: every earlier yield is a non-truthy proper value. -/
def TruthyBeforeError (out : List QVal) : Prop :=
  ∃ i v, out.get? i = some (.val v) ∧ truthy v = true
    ∧ ∀ j < i, ∃ w, out.get? j = some (.val w) ∧ truthy w = false

theorem runQueryLoop_iff (out : List QVal) :
    runQueryLoop out = true ↔ TruthyBeforeError out := by
  induction out with
  | nil =>
      simp only [runQueryLoop, TruthyBeforeError]
      constructor
      · intro h; exact Bool.noConfusion h
      · rintro ⟨i, v, hget, -, -⟩
        rw [List.get?_eq_none.mpr (by simp)] at hget
        exact Option.noConfusion hget
  | cons q rest ih =>
      cases q with
      | errv m =>
          simp only [runQueryLoop]
          constructor
          · intro h; exact Bool.noConfusion h
          · rintro ⟨i, v, hget, htr, hprev⟩
            exfalso
            match i with
            | 0 => exact QVal.noConfusion (Option.some.inj hget)
            | Nat.succ j =>
                obtain ⟨w, hw, -⟩ := hprev 0 (Nat.succ_pos j)
                exact QVal.noConfusion (Option.some.inj hw)
      | val v =>
          by_cases htr : truthy v = true
          · simp only [runQueryLoop, htr, if_true]
            constructor
            · intro _
              exact ⟨0, v, rfl, htr, fun j hj => absurd hj (Nat.not_lt_zero j)⟩
            · intro _
              trivial
          · have htr' : truthy v = false := by
              cases hv : truthy v
              · rfl
              · exact absurd hv htr
            simp only [runQueryLoop, htr']
            rw [if_neg Bool.false_ne_true, ih]
            constructor
            · rintro ⟨i, w, hget, hw, hprev⟩
              refine ⟨i + 1, w, hget, hw, fun j hj => ?_⟩
              match j with
              | 0 => exact ⟨v, rfl, htr'⟩
              | Nat.succ j' => exact hprev j' (by omega)
            · rintro ⟨i, w, hget, hw, hprev⟩
              match i with
              | 0 =>
                  exfalso
                  have := Option.some.inj hget
                  cases this
                  rw [htr'] at hw
                  exact Bool.noConfusion hw
              | Nat.succ i' =>
                  refine ⟨i', w, hget, hw, fun j hj => ?_⟩
                  exact hprev (j + 1) (by omega)

/-- The body field of an observed record as modules receive it: raw bytes, a
string, or an already-parsed value. -/
inductive GoBody where
  | bytes (bs : List Nat)
  | strb (s : String)
  | parsed (v : JVal)

/-- A module filter: HTTP methods, content-type substrings, status codes,
the JSON query source, and (when compilation succeeded) the compiled query
modeled by its iterator output. -/
structure FilterConfig where
  methods : List String
  contentTypes : List String
  statusCodes : List Nat
  jsonQuery : String
  compiled : Option (JVal → List QVal)

/-- `strings.EqualFold`, on ASCII data. -/
def equalFold (a b : String) : Bool :=
  a.toLower == b.toLower

/-- `strings.Contains hay needle`, on character sequences. -/
def infixOf (needle : List Char) : List Char → Bool
  | [] => needle.isEmpty
  | c :: rest => needle.isPrefixOf (c :: rest) || infixOf needle rest

/-- `evaluateJSONQuery` from the source: skip (match) when the query was
never compiled; unmarshal bytes/string bodies (no match on parse failure);
run the iterator loop on the parsed value. `uB`/`uS` are the
`json.Unmarshal` oracles for byte and string bodies. -/
def evaluateJSONQuery (uB : List Nat → Option JVal) (uS : String → Option JVal)
    (f : FilterConfig) (body : GoBody) : Bool :=
  match f.compiled with
  | none => true
  | some query =>
      match body with
      | .bytes bs =>
          match uB bs with
          | none => false
          | some data => runQueryLoop (query data)
      | .strb s =>
          match uS s with
          | none => false
          | some data => runQueryLoop (query data)
      | .parsed v => runQueryLoop (query v)

/-- The request-side record fields the filter reads. -/
structure RequestCtx where
  method : String
  contentType : String
  body : GoBody

/-- `ShouldProcessRequest` from the source: method set, content-type
substring set, then the JSON query — evaluated only when `jsonQuery` is
nonempty and the content type contains `json`. -/
def shouldProcessRequest (uB : List Nat → Option JVal) (uS : String → Option JVal)
    (filter : Option FilterConfig) (ctx : RequestCtx) : Bool :=
  match filter with
  | none => true
  | some f =>
      if 0 < f.methods.length ∧ ¬ (f.methods.any fun m => equalFold ctx.method m) = true then
        false
      else if 0 < f.contentTypes.length
          ∧ ¬ (f.contentTypes.any fun ct => infixOf ct.data ctx.contentType.data) = true then
        false
      else if f.jsonQuery ≠ "" ∧ infixOf "json".data ctx.contentType.data = true then
        evaluateJSONQuery uB uS f ctx.body
      else true

/-- C9 counterexample: a filter whose compiled query yields an error followed
by `true` on a JSON record. The claim says the filter matches (the output
contains a value that is neither nil, false, nor an error), but
`evaluateJSONQuery` stops with no match at the first error, so
`ShouldProcessRequest` returns `false`. -/
theorem jsonQuery_match_counterexample :
    shouldProcessRequest (fun _ => none) (fun _ => none)
      (some ⟨[], [], [], ".x", some fun _ => [.errv "boom", .val (.jbool true)]⟩)
      ⟨"POST", "application/json", .parsed .jnull⟩ = false
    ∧ QVal.val (JVal.jbool true) ∈ [QVal.errv "boom", QVal.val (JVal.jbool true)]
    ∧ truthy (JVal.jbool true) = true :=
  ⟨rfl, List.Mem.tail _ (List.Mem.head _), rfl⟩

/-- C9 (amended): the JSON-path predicate is evaluated only when the content
type contains `json` (otherwise the result is independent of the compiled
query and the body); an absent filter, or one with no rules, matches
everything; and the predicate — converting a bytes or string body to a
parsed value first — matches exactly when running the compiled query on the
parsed value yields a truthy value strictly before any error: an error yield
ends the evaluation with no match, and a body that fails to parse (so the
query never ran and yielded nothing) does not match. -/
theorem shouldProcessRequest_spec (uB : List Nat → Option JVal)
    (uS : String → Option JVal) (f : FilterConfig) (ctx : RequestCtx) :
    (shouldProcessRequest uB uS none ctx = true)
    ∧ (f.methods = [] → f.contentTypes = [] → f.jsonQuery = "" →
        shouldProcessRequest uB uS (some f) ctx = true)
    ∧ (infixOf "json".data ctx.contentType.data = false →
        ∀ c₁ c₂ b₁ b₂,
          shouldProcessRequest uB uS (some { f with compiled := c₁ })
            { ctx with body := b₁ }
          = shouldProcessRequest uB uS (some { f with compiled := c₂ })
            { ctx with body := b₂ })
    ∧ (f.jsonQuery ≠ "" →
        infixOf "json".data ctx.contentType.data = true →
        (f.methods = [] ∨ (f.methods.any fun m => equalFold ctx.method m) = true) →
        (f.contentTypes = []
          ∨ (f.contentTypes.any fun ct => infixOf ct.data ctx.contentType.data) = true) →
        ∀ q, f.compiled = some q →
          ((∀ v, ctx.body = .parsed v →
              (shouldProcessRequest uB uS (some f) ctx = true ↔ TruthyBeforeError (q v)))
            ∧ (∀ bs, ctx.body = .bytes bs →
                (∀ v, uB bs = some v →
                  (shouldProcessRequest uB uS (some f) ctx = true
                    ↔ TruthyBeforeError (q v)))
                ∧ (uB bs = none → shouldProcessRequest uB uS (some f) ctx = false))
            ∧ (∀ s', ctx.body = .strb s' →
                (∀ v, uS s' = some v →
                  (shouldProcessRequest uB uS (some f) ctx = true
                    ↔ TruthyBeforeError (q v)))
                ∧ (uS s' = none → shouldProcessRequest uB uS (some f) ctx = false)))) := by
  refine ⟨rfl, ?_, ?_, ?_⟩
  · intro hm hct hq
    simp [shouldProcessRequest, hm, hct, hq]
  · intro hjson c₁ c₂ b₁ b₂
    simp only [shouldProcessRequest, hjson]
    have hc3 : ¬ (f.jsonQuery ≠ "" ∧ (false : Bool) = true) := by
      rintro ⟨-, hc⟩
      exact Bool.noConfusion hc
    by_cases hA : 0 < f.methods.length
        ∧ ¬ (f.methods.any fun m => equalFold ctx.method m) = true
    · rw [if_pos hA, if_pos hA]
    · rw [if_neg hA, if_neg hA]
      by_cases hB : 0 < f.contentTypes.length
          ∧ ¬ (f.contentTypes.any fun ct => infixOf ct.data ctx.contentType.data) = true
      · rw [if_pos hB, if_pos hB]
      · rw [if_neg hB, if_neg hB, if_neg hc3, if_neg hc3]
  · intro hq hjson hm hct q hcomp
    have hmcond : ¬ (0 < f.methods.length
        ∧ ¬ (f.methods.any fun m => equalFold ctx.method m) = true) := by
      rintro ⟨hpos, hneg⟩
      rcases hm with hm | hm
      · rw [hm] at hpos; exact absurd hpos (by simp)
      · exact hneg hm
    have hctcond : ¬ (0 < f.contentTypes.length
        ∧ ¬ (f.contentTypes.any fun ct => infixOf ct.data ctx.contentType.data) = true) := by
      rintro ⟨hpos, hneg⟩
      rcases hct with hct | hct
      · rw [hct] at hpos; exact absurd hpos (by simp)
      · exact hneg hct
    have hred : shouldProcessRequest uB uS (some f) ctx
        = evaluateJSONQuery uB uS f ctx.body := by
      simp only [shouldProcessRequest, if_neg hmcond, if_neg hctcond,
        if_pos (And.intro hq hjson)]
    refine ⟨?_, ?_, ?_⟩
    · intro v hbody
      rw [hred, hbody]
      simp only [evaluateJSONQuery, hcomp]
      exact runQueryLoop_iff (q v)
    · intro bs hbody
      constructor
      · intro v hparse
        rw [hred, hbody]
        simp only [evaluateJSONQuery, hcomp, hparse]
        exact runQueryLoop_iff (q v)
      · intro hparse
        rw [hred, hbody]
        simp only [evaluateJSONQuery, hcomp, hparse]
    · intro s' hbody
      constructor
      · intro v hparse
        rw [hred, hbody]
        simp only [evaluateJSONQuery, hcomp, hparse]
        exact runQueryLoop_iff (q v)
      · intro hparse
        rw [hred, hbody]
        simp only [evaluateJSONQuery, hcomp, hparse]

/-- Witness for the amended C9: a filter with a query whose output is a
single truthy value matches a parsed JSON record; a bytes record whose body
fails to parse does not match. -/
theorem shouldProcessRequest_spec_witness :
    shouldProcessRequest (fun _ => none) (fun _ => none)
      (some ⟨[], [], [], ".ok", some fun _ => [.val (.jbool true)]⟩)
      ⟨"POST", "application/json", .parsed .jnull⟩ = true
    ∧ shouldProcessRequest (fun _ => none) (fun _ => none)
      (some ⟨[], [], [], ".ok", some fun _ => [.val (.jbool true)]⟩)
      ⟨"POST", "application/json", .bytes [123]⟩ = false :=
  ⟨(((shouldProcessRequest_spec (fun _ => none) (fun _ => none)
      ⟨[], [], [], ".ok", some fun _ => [.val (.jbool true)]⟩
      ⟨"POST", "application/json", .parsed .jnull⟩).2.2.2
    (by decide) rfl (Or.inl rfl) (Or.inl rfl)
    _ rfl).1 _ rfl).mpr
    ⟨0, .jbool true, rfl, rfl, fun j hj => absurd hj (Nat.not_lt_zero j)⟩,
   (((shouldProcessRequest_spec (fun _ => none) (fun _ => none)
      ⟨[], [], [], ".ok", some fun _ => [.val (.jbool true)]⟩
      ⟨"POST", "application/json", .bytes [123]⟩).2.2.2
    (by decide) rfl (Or.inl rfl) (Or.inl rfl)
    _ rfl).2.1 [123] rfl).2 rfl⟩

/-! ## engine_getBlobs response classification
(xatu/engine_getblobs.go: extractGetBlobsResponseData) -/

/-- A JSON-RPC error object as carried on a response event. -/
structure RpcError where
  message : String
deriving Repr, DecidableEq

/-- The response event fields the extraction reads: the RPC error (if any)
and the parsed `result` value (`nil` is JSON null). -/
structure GetBlobsResponse where
  error : Option RpcError
  result : JVal
deriving Repr

/-- `blob != nil` test of the counting loop. -/
def isNullVal : JVal → Bool
  | .jnull => true
  | _ => false

/-- `extractGetBlobsResponseData` from the source: error → `ERROR` with the
message; null or non-array result → `UNSUPPORTED` with count 0; otherwise
count the non-null entries and classify `EMPTY`/`PARTIAL`/`SUCCESS`. -/
def extractGetBlobsResponseData (resp : GetBlobsResponse) : Nat × String × String :=
  match resp.error with
  | some e => (0, "ERROR", e.message)
  | none =>
      match resp.result with
      | .jnull => (0, "UNSUPPORTED", "")
      | .jarr l =>
          let nonNullCount := (l.filter fun b => !isNullVal b).length
          (nonNullCount,
            if nonNullCount = 0 then "EMPTY"
            else if nonNullCount < l.length then "PARTIAL"
            else "SUCCESS", "")
      | _ => (0, "UNSUPPORTED", "")

/-- C8: RPC error → status `ERROR` carrying the message; null or non-array
result → `UNSUPPORTED` with returned count 0; array result → the returned
count is the number of non-null entries, with status `EMPTY` when that count
is 0, `PARTIAL` when it is positive but below the array length, and
`SUCCESS` when it equals the (positive) array length. -/
theorem getBlobs_classification (resp : GetBlobsResponse) :
    (∀ e, resp.error = some e →
        extractGetBlobsResponseData resp = (0, "ERROR", e.message))
    ∧ (resp.error = none → (¬ ∃ l, resp.result = JVal.jarr l) →
        extractGetBlobsResponseData resp = (0, "UNSUPPORTED", ""))
    ∧ (resp.error = none → ∀ l, resp.result = JVal.jarr l →
        ((extractGetBlobsResponseData resp).1
            = (l.filter fun b => !isNullVal b).length
          ∧ (extractGetBlobsResponseData resp).2.2 = ""
          ∧ ((l.filter fun b => !isNullVal b).length = 0 →
              (extractGetBlobsResponseData resp).2.1 = "EMPTY")
          ∧ (0 < (l.filter fun b => !isNullVal b).length →
              (l.filter fun b => !isNullVal b).length < l.length →
              (extractGetBlobsResponseData resp).2.1 = "PARTIAL")
          ∧ ((l.filter fun b => !isNullVal b).length = l.length → 0 < l.length →
              (extractGetBlobsResponseData resp).2.1 = "SUCCESS"))) := by
  refine ⟨?_, ?_, ?_⟩
  · intro e he
    simp [extractGetBlobsResponseData, he]
  · intro hne hnarr
    cases hres : resp.result with
    | jarr l => exact absurd ⟨l, hres⟩ hnarr
    | jnull => simp [extractGetBlobsResponseData, hne, hres]
    | jbool b => simp [extractGetBlobsResponseData, hne, hres]
    | jnum q => simp [extractGetBlobsResponseData, hne, hres]
    | jstr s => simp [extractGetBlobsResponseData, hne, hres]
    | jobj fs => simp [extractGetBlobsResponseData, hne, hres]
  · intro hne l hres
    simp only [extractGetBlobsResponseData, hne, hres]
    refine ⟨by trivial, by trivial, ?_, ?_, ?_⟩
    · intro hzero
      simp [hzero]
    · intro hpos hlt
      rw [if_neg (by omega), if_pos hlt]
    · intro heq hposlen
      rw [if_neg (by omega), if_neg (by omega)]

/-- Witness for C8: a 2-entry result with one null blob classifies as
`PARTIAL` with returned count 1; an RPC error classifies as `ERROR`. -/
theorem getBlobs_classification_witness :
    extractGetBlobsResponseData ⟨none, .jarr [.jnull, .jstr "0xab"]⟩
      = (1, "PARTIAL", "")
    ∧ extractGetBlobsResponseData ⟨some ⟨"boom"⟩, .jnull⟩ = (0, "ERROR", "boom") := by
  constructor
  · have h := (getBlobs_classification ⟨none, .jarr [.jnull, .jstr "0xab"]⟩).2.2
      rfl [.jnull, .jstr "0xab"] rfl
    have hcount : (([JVal.jnull, JVal.jstr "0xab"].filter
        fun b => !isNullVal b)).length = 1 := rfl
    refine Prod.ext ?_ (Prod.ext ?_ ?_)
    · rw [h.1, hcount]
    · rw [h.2.2.2.1 (by rw [hcount]; omega) (by rw [hcount]; simp)]
    · exact h.2.1
  · exact (getBlobs_classification ⟨some ⟨"boom"⟩, .jnull⟩).1 ⟨"boom"⟩ rfl

end RpcSnooper
